import Mathlib

/-!
# A shallow embedding of the IPlug-Network-Utilities core

Definitions translate the C++ sources of the repository
(NetworkPeer.hpp, NetworkServer.hpp, NetworkClient.hpp, NetworkData.hpp,
PrecisionTimer.hpp, NetworkTiming.hpp and the older variants of those
headers) into executable Lean functions.  Machine doubles are modelled as
exact rationals, 32-bit unsigned counters as naturals reduced mod 2^32,
and the monotone CPU clock as an explicit time parameter.
-/

namespace IPlugNU

/-! ## Peer registry (NetworkPeer.hpp, class PeerList) -/

/-- PeerSource from NetworkPeer.hpp. -/
inductive PeerSource
  | Unresolved
  | Discovered
  | Client
  | Server
  | Remote
deriving DecidableEq

/-- PeerList::Peer: a host name, a port, a source tag and a linger time
(uint32_t milliseconds). -/
structure Peer where
  name : String
  port : Nat
  source : PeerSource
  time : Nat
deriving DecidableEq

/-- The modulus of a uint32_t. -/
def u32 : Nat := 2 ^ 32

/-- Peer::UpdateTime: mTime = std::min(mTime, time). -/
def Peer.updateTime (p : Peer) (t : Nat) : Peer :=
  { p with time := min p.time t }

/-- Peer::AddTime from NetworkPeer.hpp: mTime += add (uint32_t wrap-around). -/
def Peer.addTime (p : Peer) (add : Nat) : Peer :=
  { p with time := (p.time + add) % u32 }

/-- Peer::AddTime from the older NetworkPeer variant kept in the repository
(src/unnamed/part_000): the body executes mTime += mTime, doubling the
linger time and ignoring the `add` argument. -/
def Peer.addTimeOld (p : Peer) (_add : Nat) : Peer :=
  { p with time := (p.time + p.time) % u32 }

/-- NamePrefer: strcmp(name1, name2) < 0, i.e. strict lexicographic order. -/
def namePrefer (n1 n2 : String) : Prop := n1 < n2

instance (n1 n2 : String) : Decidable (namePrefer n1 n2) :=
  inferInstanceAs (Decidable (n1 < n2))

/-- The update branch of PeerList::Add: the first peer whose name equals the
incoming peer's name gets the incoming port and source, and the minimum of
the two times. -/
def updateFirst (p : Peer) : List Peer → List Peer
  | [] => []
  | a :: l =>
    if a.name = p.name then
      { a with port := p.port, source := p.source, time := min a.time p.time } :: l
    else
      a :: updateFirst p l

/-- The insert branch of PeerList::Add: std::find_if with
`!NamePrefer(a, peer)` finds the first entry whose name is not less than the
incoming name, and the peer is inserted before it. -/
def insertOrdered (p : Peer) : List Peer → List Peer
  | [] => [p]
  | a :: l => if a.name < p.name then a :: insertOrdered p l else p :: a :: l

/-- PeerList::Add from NetworkPeer.hpp: update the entry with a matching
name when there is one, insert in name order otherwise. -/
def addPeer (reg : List Peer) (p : Peer) : List Peer :=
  if reg.any (fun a => a.name = p.name) then updateFirst p reg else insertOrdered p reg

/-- PeerList::Prune from NetworkPeer.hpp: when addTime is non-zero every
peer's time is increased by addTime, then every peer whose time reaches
maxTime is removed. -/
def prune (maxTime addTime : Nat) (reg : List Peer) : List Peer :=
  (if addTime = 0 then reg else reg.map (fun a => a.addTime addTime)).filter
    (fun a => !decide (a.time ≥ maxTime))

/-- PeerList::Prune of the older NetworkPeer variant (src/unnamed/part_000):
same structure, but ageing goes through the doubling Peer::AddTime. -/
def pruneOld (maxTime addTime : Nat) (reg : List Peer) : List Peer :=
  (if addTime = 0 then reg else reg.map (fun a => a.addTimeOld addTime)).filter
    (fun a => !decide (a.time ≥ maxTime))

/-- The registry operations a caller can perform. -/
inductive RegOp
  | add (p : Peer)
  | pruneOp (maxTime addTime : Nat)

/-- Run a sequence of registry operations from the empty registry. -/
def execOps (ops : List RegOp) : List Peer :=
  ops.foldl
    (fun reg op =>
      match op with
      | .add p => addPeer reg p
      | .pruneOp m a => prune m a reg)
    []

/-- The registry invariant: peer names strictly increase along the list. -/
def SortedNames (reg : List Peer) : Prop :=
  reg.Pairwise (fun a b => a.name < b.name)

/-! ## Hosts and the next-server slot (NetworkPeer.hpp, classes Host and
NextServer).  The CPU timer inside NextServer (CPUTimer of
NetworkTiming.hpp) records a start instant of the steady clock and
Interval() returns the seconds elapsed since; it is embedded by passing the
current time explicitly as a rational number of seconds. -/

/-- Host: a hostname and a port; the empty name denotes no host. -/
structure Host where
  name : String
  port : Nat
deriving DecidableEq

/-- Host(): the default host is empty with port 0. -/
def Host.empty : Host := ⟨"", 0⟩

/-- NextServer holds a host and the instant Set started its CPUTimer. -/
structure NextServer where
  host : Host
  setAt : ℚ
deriving DecidableEq

/-- NextServer::Set at time `now`: store the host and restart the timer. -/
def NextServer.set (h : Host) (now : ℚ) : NextServer := ⟨h, now⟩

/-- NextServer::Get at time `now`: the stored host unless more than 4
seconds have elapsed since Set, in which case the empty host. -/
def NextServer.get (ns : NextServer) (now : ℚ) : Host :=
  if 4 < now - ns.setAt then Host.empty else ns.host

/-- NetworkPeer::SetNextServer: IsSelf(server) compares the name with the
local hostname and a self reference is never stored. -/
def setNextServer (localName : String) (ns : NextServer) (server : String)
    (port : Nat) (now : ℚ) : NextServer :=
  if server = localName then ns else NextServer.set ⟨server, port⟩ now

/-! ## Client connection state (NetworkClient.hpp,
NetworkClientInterface) -/

/-- The client-facet state: the optional transport connection (mConnection,
abstracted to an identifier), the stored server name (mServer) and the
connection port (mPort). -/
structure ClientSt where
  connection : Option Nat
  server : String
  port : Nat
deriving DecidableEq

/-- IsClientConnected: mConnection is non-null. -/
def isClientConnected (c : ClientSt) : Bool := c.connection.isSome

/-- NetworkClientInterface::Connect.  `created` is the result of the
transport's T::create.  The old connection is always released and replaced;
on success the server name and port are stored, on failure they are
cleared.  Returns the new state, the released old connection and the value
IsClientConnected() reports at the end of the call. -/
def connect (c : ClientSt) (host : String) (port : Nat) (created : Option Nat) :
    ClientSt × Option Nat × Bool :=
  let c' : ClientSt :=
    match created with
    | some conn => { connection := some conn, server := host, port := port }
    | none => { connection := none, server := "", port := 0 }
  (c', c.connection, isClientConnected c')

/-! ## Client election state (NetworkPeer.hpp) -/

/-- ClientState from NetworkPeer.hpp line 21: the enum declares exactly the
three values Unconfirmed, Confirmed and Connected. -/
inductive ClientState
  | Unconfirmed
  | Confirmed
  | Connected
deriving DecidableEq

instance : Fintype ClientState where
  elems := {ClientState.Unconfirmed, ClientState.Confirmed, ClientState.Connected}
  complete := by intro x; cases x <;> decide

/-- The Confirm branch of NetworkPeer::HandleConnectionDataToClient: a
non-zero confirm value moves the state to Confirmed; a zero confirm value
leaves the state and calls Disconnect() at once.  The Bool records whether
Disconnect() ran during the handler. -/
def handleConfirmToClient (s : ClientState) (confirm : ℤ) : ClientState × Bool :=
  if confirm = 0 then (s, true) else (ClientState.Confirmed, false)

/-! ## Negotiate handling on the server side (NetworkPeer.hpp,
HandleConnectionDataToServer) -/

/-- The observable outcome of the Negotiate branch: the integer sent in the
Confirm reply and the next-server slot after the handler. -/
structure NegotiateResult where
  confirm : ℤ
  next : NextServer
deriving DecidableEq

/-- The Negotiate branch of NetworkPeer::HandleConnectionDataToServer.
`localName` is GetHostName(), `numClientsLocal` the size of
mConfirmedClients, and `clientName`, `port`, `numClients` the payload read
from the stream.  confirm = numClients < numClientsLocal || prefer with
prefer = (numClients == numClientsLocal && NamePrefer(local, client)); on
confirm = 0 the handler calls SetNextServer(clientName, port). -/
def handleNegotiate (localName : String) (numClientsLocal : ℤ) (ns : NextServer)
    (clientName : String) (port : Nat) (numClients : ℤ) (now : ℚ) :
    NegotiateResult :=
  let confirm : ℤ :=
    if numClients < numClientsLocal ∨
        (numClients = numClientsLocal ∧ namePrefer localName clientName) then 1
    else 0
  { confirm := confirm
    next := if confirm = 0 then setNextServer localName ns clientName port now else ns }

/-! ## Server facet (NetworkServer.hpp, NetworkServerInterface) -/

/-- The server-facet state: mServer is null when the listener is not
running, otherwise it carries the transport's list of open socket
connections (whose length is mServer->size()). -/
structure ServerSt where
  conns : Option (List Nat)
deriving DecidableEq

/-- NClients: mServer ? mServer->size() : 0. -/
def nClients (s : ServerSt) : Nat :=
  match s.conns with
  | none => 0
  | some l => l.length

/-- IsServerRunning: mServer is non-null. -/
def isServerRunning (s : ServerSt) : Bool := s.conns.isSome

/-- IsServerConnected from NetworkServer.hpp lines 244-249: the body is
`return NClients();`, the int converting to true exactly when it is
non-zero. -/
def isServerConnected (s : ServerSt) : Bool := decide (nClients s ≠ 0)

/-! ## The peer aggregate and TryConnect (NetworkPeer.hpp) -/

/-- The parts of NetworkPeer that TryConnect touches: the local hostname
(GetHostName()), the port the local listener advertises
(mDiscoverable.Port()), the client facet, the client state and the
confirmed-client connection ids. -/
structure PeerNode where
  hostName : String
  listenPort : Nat
  client : ClientSt
  clientState : ClientState
  confirmedClients : List Nat
deriving DecidableEq

/-- The payload of a sent Negotiate control message: the tag, the hostname
string, the uint16_t port and the int client count, in stream order. -/
structure NegotiateMsg where
  tag : String
  host : String
  port : Nat
  count : ℤ
deriving DecidableEq

/-- NetworkPeer::TryConnect with direct = false.  `created` is the
transport's creation result inside Connect.  On success the client state
becomes Unconfirmed and a Negotiate message is sent carrying GetHostName(),
the value Port() returns after Connect (the port just connected to) and
mConfirmedClients.Size().  Returns the new node, the sent message if any,
and the bool TryConnect returns. -/
def tryConnect (n : PeerNode) (host : String) (port : Nat) (created : Option Nat) :
    PeerNode × Option NegotiateMsg × Bool :=
  let r := connect n.client host port created
  if r.2.2 then
    ({ n with client := r.1, clientState := ClientState.Unconfirmed },
      some ⟨"Negotiate", n.hostName, r.1.port, (n.confirmedClients.length : ℤ)⟩,
      true)
  else
    ({ n with client := r.1 }, none, false)

/-! ## Byte streams and tag matching (NetworkData.hpp,
NetworkByteStream) -/

/-- NetworkByteStream: a read-only byte buffer and a cursor (mPos). -/
structure ByteStream where
  data : List Nat
  pos : Nat
deriving DecidableEq

/-- Modelled from the spec: iplug IByteStream GetStr, the string-reading
primitive NetworkByteStream::IsNextTag calls, lives in the external iPlug
dependency and is not a file of this repository.  The spec's wire framing
(section 6) defines a string item as raw bytes followed by a single 0x00
terminator, and a non-terminated string as a failed read.  GetStr therefore
returns the bytes before the first 0 at or after the cursor together with
the position just past that terminator, and nothing when no terminator
remains. -/
def getStr (data : List Nat) (pos : Nat) : Option (List Nat × Nat) :=
  let rest := data.drop pos
  let s := rest.takeWhile (fun b => !decide (b = 0))
  if s.length < rest.length then some (s, pos + s.length + 1) else none

/-- NetworkByteStream::IsNextTag: read the next string without committing
the cursor; when it equals the tag, commit the cursor past it and return
true, otherwise leave the cursor where it was and return false. -/
def isNextTag (st : ByteStream) (tag : List Nat) : Bool × ByteStream :=
  match getStr st.data st.pos with
  | some (s, p) => if s = tag then (true, { st with pos := p }) else (false, st)
  | none => (false, st)

/-- NetworkByteStream::Tell: the cursor. -/
def tell (st : ByteStream) : Nat := st.pos

/-! ## Precision timer (PrecisionTimer.hpp).  TimeStamp wraps a double
holding seconds; doubles are embedded as exact rationals. -/

/-- TimeStamp's Half: multiplication by 0.5. -/
def half (a : ℚ) : ℚ := a * (1 / 2)

/-- MedianFilter of TimeStamp with Size = 5: the std::array memory and the
insertion cursor (mCount). -/
structure Filt where
  m0 : ℚ
  m1 : ℚ
  m2 : ℚ
  m3 : ℚ
  m4 : ℚ
  cursor : Nat
deriving DecidableEq

/-- MedianFilter::Reset: the memory is filled with TimeStamp(0) and the
cursor returns to slot 0. -/
def Filt.init : Filt := ⟨0, 0, 0, 0, 0, 0⟩

/-- The filter memory in slot order. -/
def Filt.toList (f : Filt) : List ℚ := [f.m0, f.m1, f.m2, f.m3, f.m4]

/-- MedianFilter::operator(): write the sample into the slot the cursor
names and step the cursor, wrapping at 5. -/
def Filt.push (f : Filt) (v : ℚ) : Filt :=
  let g :=
    match f.cursor with
    | 0 => { f with m0 := v }
    | 1 => { f with m1 := v }
    | 2 => { f with m2 := v }
    | 3 => { f with m3 := v }
    | _ => { f with m4 := v }
  { g with cursor := if f.cursor + 1 ≥ 5 then 0 else f.cursor + 1 }

/-- Ascending sort used to express the filter's median: the code sorts the
five slot indices by value and reads the slot of rank Size >> 1 = 2, which
is the rank-2 value of the sorted multiset of slot values. -/
def sortQ (l : List ℚ) : List ℚ := List.insertionSort (fun a b => a ≤ b) l

/-- The value MedianFilter::operator() returns for a memory holding the
multiset of `l`: the element of rank 2 after sorting. -/
def median5 (l : List ℚ) : ℚ := (sortQ l).getD 2 0

/-- The PrecisionTimer fields ReceiveAsClient touches: mOffset, mReference
and the 5-tap median filter. -/
structure TimerSt where
  offset : ℚ
  reference : ℚ
  filter : Filt
deriving DecidableEq

/-- A fresh timer: mOffset is a default TimeStamp(0) -- kept symbolic here
as `off` so the theorem covers every prior offset -- and the filter memory
is zero-seeded. -/
def timerInit (off ref : ℚ) : TimerSt := ⟨off, ref, Filt.init⟩

/-- PrecisionTimer::CalculateOffset: Half(t2 - t1 - t4 + t3). -/
def calculateOffset (t1 t2 t3 t4 : ℚ) : ℚ := half (t2 - t1 - t4 + t3)

/-- The Respond branch of PrecisionTimer::ReceiveAsClient, with t1, t2 read
from the stream and t3 = GetTimeStamp() at receipt: offset is
CalculateOffset(t1, t2, t2, t3); alterRaw = offset *
max(0.1, min(1.0, fabs(offset))); the filter is fed alterRaw and compare =
fabs(median) * 8.0; alter clamps alterRaw into [-compare, compare]; then
mOffset += alter and mReference = -mOffset. -/
def receiveRespond (st : TimerSt) (t1 t2 t3 : ℚ) : TimerSt :=
  let offset := calculateOffset t1 t2 t2 t3
  let alterRaw := offset * max (1 / 10) (min 1 |offset|)
  let f' := st.filter.push alterRaw
  let compare := |median5 f'.toList| * 8
  let alter := min compare (max (-compare) alterRaw)
  { offset := st.offset + alter
    reference := -(st.offset + alter)
    filter := f' }

/-- One Sync round trip as the follower sees it: its send time t1, the
coordinator's timestamp t2 and the local receive time t3. -/
structure SyncEvt where
  t1 : ℚ
  t2 : ℚ
  t3 : ℚ
deriving DecidableEq

/-- A run of the timer over a history of Respond receipts. -/
def runTimer (st : TimerSt) (hist : List SyncEvt) : TimerSt :=
  hist.foldl (fun s e => receiveRespond s e.t1 e.t2 e.t3) st

/-! ### The claim's formulas for the Respond step (spec sections 4.7.1 and
4.7.2), stated independently of the filter implementation. -/

/-- clamp(x, lo, hi). -/
def clampQ (x lo hi : ℚ) : ℚ := max lo (min hi x)

/-- o = ((t2 - t1) + (t2 - t3)) / 2. -/
def specRawOffset (e : SyncEvt) : ℚ := ((e.t2 - e.t1) + (e.t2 - e.t3)) / 2

/-- alter_raw = o * clamp(fabs(o), 0.1, 1.0). -/
def specAlterRaw (e : SyncEvt) : ℚ :=
  specRawOffset e * clampQ |specRawOffset e| (1 / 10) 1

/-- The last five proposals of a proposal history, zero-seeded: the most
recent at the front, padded with the filter's zero seed. -/
def lastFiveProposals (props : List ℚ) : List ℚ :=
  props.reverse.take 5 ++ List.replicate (5 - props.length) 0

/-- The claim's applied step for a Respond arriving after `past`:
m = median of the last five alter_raw proposals including this one,
compare = fabs(m) * 8, alter = clamp(alter_raw, -compare, compare). -/
def specAlter (past : List SyncEvt) (e : SyncEvt) : ℚ :=
  let props := (past ++ [e]).map specAlterRaw
  let compare := |median5 (lastFiveProposals props)| * 8
  clampQ (specAlterRaw e) (-compare) compare

/-- The shift-register reading of the filter memory: the window of the last
five pushes, most recent first, zero-seeded. -/
def shiftWin (ps : List ℚ) : List ℚ :=
  ps.foldl (fun w v => v :: w.take 4) (List.replicate 5 0)

/-- The circular buffer's slot order as a function of the most-recent-first
window and the cursor: slot i holds the latest push whose ordinal is i mod
5. -/
def window5 (w : List ℚ) (k : Nat) : List ℚ :=
  match k, w with
  | 0, [a, b, c, d, e] => [e, d, c, b, a]
  | 1, [a, b, c, d, e] => [a, e, d, c, b]
  | 2, [a, b, c, d, e] => [b, a, e, d, c]
  | 3, [a, b, c, d, e] => [c, b, a, e, d]
  | _, [a, b, c, d, e] => [d, c, b, a, e]
  | _, l => l

/-- The filter invariant tying a run of pushes to the buffer state. -/
def FiltInv (ps : List ℚ) (f : Filt) : Prop :=
  f.cursor = ps.length % 5 ∧ f.toList = window5 (shiftWin ps) (ps.length % 5)

/-! ## The spec claims under examination, stated verbatim over the
embedding.  Each is a proposition so that a failing claim can be refuted
outright. -/

/-- Claim C1 as stated: on Negotiate, Confirm(1) goes out exactly when
R < L or R = L with the local hostname strictly smaller, and otherwise
Confirm(0) goes out and the remote (name, port) is recorded as
next_server. -/
def ClaimC1 : Prop :=
  ∀ (localName : String) (l : ℤ) (ns : NextServer) (clientName : String)
    (port : Nat) (r : ℤ) (now : ℚ),
    ((handleNegotiate localName l ns clientName port r now).confirm = 1 ↔
        (r < l ∨ (r = l ∧ localName < clientName))) ∧
      ((handleNegotiate localName l ns clientName port r now).confirm ≠ 1 →
        (handleNegotiate localName l ns clientName port r now).next =
          NextServer.set ⟨clientName, port⟩ now)

/-- Claim C2 as stated: ClientState has four values (so four pairwise
distinct inhabitants exist), and a Confirm(0) received in Unconfirmed moves
to a failed state with the socket disconnected only on the next discovery
tick -- that is, the handler itself does not disconnect. -/
def ClaimC2 : Prop :=
  (∃ a b c d : ClientState,
      a ≠ b ∧ a ≠ c ∧ a ≠ d ∧ b ≠ c ∧ b ≠ d ∧ c ≠ d) ∧
    (handleConfirmToClient ClientState.Unconfirmed 0).2 = false

/-- The server facet together with the peer's confirmed-client set. -/
structure ServerNode where
  server : ServerSt
  confirmedClients : List Nat
deriving DecidableEq

/-- Claim C3 as stated: IsServerConnected holds iff the set of confirmed
clients is non-empty. -/
def ClaimC3 : Prop :=
  ∀ n : ServerNode, isServerConnected n.server = true ↔ n.confirmedClients ≠ []

/-- Claim C7 as stated: a non-direct TryConnect whose transport connect
succeeds sends Negotiate carrying the node's own hostname, the node's own
listening port, and the confirmed-client count; it returns false exactly
when the connect fails. -/
def ClaimC7 : Prop :=
  ∀ (n : PeerNode) (host : String) (port : Nat) (created : Option Nat),
    ((tryConnect n host port created).2.2 = true ↔ created ≠ none) ∧
      ∀ conn, created = some conn →
        (tryConnect n host port created).2.1 =
            some ⟨"Negotiate", n.hostName, n.listenPort,
              (n.confirmedClients.length : ℤ)⟩ ∧
          (tryConnect n host port created).1.clientState = ClientState.Unconfirmed

/-! ## Registry lemmas -/

theorem sortedNames_iff (reg : List Peer) :
    SortedNames reg ↔ (reg.map Peer.name).Pairwise (fun a b => a < b) := by
  unfold SortedNames
  exact (List.pairwise_map).symm

theorem updateFirst_names (p : Peer) :
    ∀ reg : List Peer, (updateFirst p reg).map Peer.name = reg.map Peer.name := by
  intro reg
  induction reg with
  | nil => rfl
  | cons a l ih =>
    by_cases h : a.name = p.name
    · simp [updateFirst, h]
    · simp [updateFirst, h, ih]

theorem sortedNames_updateFirst (p : Peer) (reg : List Peer)
    (h : SortedNames reg) : SortedNames (updateFirst p reg) := by
  rw [sortedNames_iff, updateFirst_names]
  exact (sortedNames_iff reg).mp h

theorem mem_insertOrdered (p q : Peer) :
    ∀ l : List Peer, q ∈ insertOrdered p l → q = p ∨ q ∈ l := by
  intro l
  induction l with
  | nil => intro h; simp [insertOrdered] at h; exact Or.inl h
  | cons a l ih =>
    intro h
    by_cases hc : a.name < p.name
    · simp only [insertOrdered, if_pos hc, List.mem_cons] at h
      rcases h with rfl | h
      · exact Or.inr (List.mem_cons_self _ _)
      · rcases ih h with h' | h'
        · exact Or.inl h'
        · exact Or.inr (List.mem_cons_of_mem a h')
    · simp only [insertOrdered, if_neg hc, List.mem_cons] at h
      rcases h with rfl | h
      · exact Or.inl rfl
      · exact Or.inr (List.mem_cons.mpr h)

theorem sortedNames_insertOrdered (p : Peer) :
    ∀ l : List Peer, SortedNames l → (∀ a ∈ l, a.name ≠ p.name) →
      SortedNames (insertOrdered p l) := by
  intro l
  induction l with
  | nil => intro _ _; exact List.pairwise_singleton _ p
  | cons a l ih =>
    intro hs hne
    rcases List.pairwise_cons.mp hs with ⟨ha, hl⟩
    by_cases hc : a.name < p.name
    · unfold insertOrdered
      rw [if_pos hc]
      refine List.pairwise_cons.mpr ⟨?_, ih hl fun b hb => hne b (List.mem_cons_of_mem a hb)⟩
      intro b hb
      rcases mem_insertOrdered p b l hb with rfl | hbl
      · exact hc
      · exact ha b hbl
    · unfold insertOrdered
      rw [if_neg hc]
      have hap : p.name < a.name :=
        lt_of_le_of_ne (not_lt.mp hc) fun e => hne a (List.mem_cons_self a l) e.symm
      refine List.pairwise_cons.mpr ⟨?_, hs⟩
      intro b hb
      rcases List.mem_cons.mp hb with rfl | hbl
      · exact hap
      · exact lt_trans hap (ha b hbl)

theorem sortedNames_prune (m t : Nat) (reg : List Peer)
    (h : SortedNames reg) : SortedNames (prune m t reg) := by
  unfold prune
  apply List.Pairwise.filter
  by_cases ht : t = 0
  · rw [if_pos ht]; exact h
  · rw [if_neg ht]
    exact h.map _ fun a b hab => hab

theorem sortedNames_addPeer (reg : List Peer) (p : Peer)
    (h : SortedNames reg) : SortedNames (addPeer reg p) := by
  unfold addPeer
  by_cases hc : reg.any (fun a => a.name = p.name) = true
  · rw [if_pos hc]; exact sortedNames_updateFirst p reg h
  · rw [if_neg hc]
    refine sortedNames_insertOrdered p reg h ?_
    intro a ha he
    exact hc (List.any_eq_true.mpr ⟨a, ha, decide_eq_true he⟩)

theorem sortedNames_execOps_from (ops : List RegOp) :
    ∀ reg : List Peer, SortedNames reg →
      SortedNames
        (ops.foldl
          (fun reg op =>
            match op with
            | .add p => addPeer reg p
            | .pruneOp m a => prune m a reg)
          reg) := by
  induction ops with
  | nil => intro reg h; exact h
  | cons op ops ih =>
    intro reg h
    cases op with
    | add p => exact ih _ (sortedNames_addPeer reg p h)
    | pruneOp m a => exact ih _ (sortedNames_prune m a reg h)

theorem updateFirst_eq_map (p : Peer) :
    ∀ reg : List Peer, (reg.map Peer.name).Nodup →
      reg.any (fun a => a.name = p.name) = true →
      updateFirst p reg =
        reg.map fun q =>
          if q.name = p.name then
            { q with port := p.port, source := p.source, time := min q.time p.time }
          else q := by
  intro reg
  induction reg with
  | nil => intro _ h; simp at h
  | cons a l ih =>
    intro hnd hany
    rw [List.map_cons, List.nodup_cons] at hnd
    rcases hnd with ⟨hna, hnl⟩
    by_cases h : a.name = p.name
    · have htail : ∀ q ∈ l, ¬(q.name = p.name) := by
        intro q hq he
        exact hna (h ▸ he ▸ List.mem_map_of_mem Peer.name hq)
      have hmap :
          l.map (fun q =>
            if q.name = p.name then
              { q with port := p.port, source := p.source, time := min q.time p.time }
            else q) = l :=
        (List.map_congr_left fun q hq => if_neg (htail q hq)).trans (List.map_id l)
      unfold updateFirst
      rw [if_pos h, List.map_cons, if_pos h, hmap]
    · have hany' : l.any (fun a => a.name = p.name) = true := by
        rcases List.any_eq_true.mp hany with ⟨b, hb, hbp⟩
        rcases List.mem_cons.mp hb with rfl | hbl
        · exact absurd (of_decide_eq_true hbp) h
        · exact List.any_eq_true.mpr ⟨b, hbl, hbp⟩
      unfold updateFirst
      rw [if_neg h, List.map_cons, if_neg h]
      congr 1
      exact ih hnl hany'

theorem insertOrdered_eq_parts (p : Peer) :
    ∀ reg : List Peer,
      insertOrdered p reg =
        reg.takeWhile (fun a => a.name < p.name) ++
          p :: reg.dropWhile (fun a => a.name < p.name) := by
  intro reg
  induction reg with
  | nil => rfl
  | cons a l ih =>
    by_cases h : a.name < p.name
    · simp only [insertOrdered, if_pos h, List.takeWhile, List.dropWhile,
        decide_eq_true h, List.cons_append, ih]
    · simp only [insertOrdered, if_neg h, List.takeWhile, List.dropWhile,
        decide_eq_false h, List.nil_append]

/-! ## Claim C6: registry order invariant and the two faces of Add -/

/-- C6.  After any sequence of PeerRegistry add and prune operations from
the empty registry the peer names are strictly increasing (hence unique);
on a registry with pairwise distinct names, Add of a present name rewrites
that entry's port, source and (minimised) time in place, keeping the name
sequence, and Add of an absent name inserts exactly at its lexicographic
position. -/
theorem c6_registry_order :
    (∀ ops : List RegOp, SortedNames (execOps ops)) ∧
      ∀ (reg : List Peer) (p : Peer), (reg.map Peer.name).Nodup →
        (reg.any (fun a => a.name = p.name) = true →
          addPeer reg p =
            reg.map fun q =>
              if q.name = p.name then
                { q with port := p.port, source := p.source, time := min q.time p.time }
              else q) ∧
          (reg.any (fun a => a.name = p.name) = false →
            addPeer reg p =
              reg.takeWhile (fun a => a.name < p.name) ++
                p :: reg.dropWhile (fun a => a.name < p.name)) := by
  constructor
  · intro ops
    exact sortedNames_execOps_from ops [] List.Pairwise.nil
  · intro reg p hnd
    constructor
    · intro hany
      unfold addPeer
      rw [if_pos hany]
      exact updateFirst_eq_map p reg hnd hany
    · intro hany
      unfold addPeer
      rw [hany]
      simp only [Bool.false_eq_true, if_false]
      exact insertOrdered_eq_parts p reg

/-! ## Claim C5: prune ageing -/

/-- C5.  The additive claim against the doubling variant: on the registry
holding one peer with linger time 5, pruneOld of the older NetworkPeer
variant (mTime += mTime) with max_time 9 and add_time 3 doubles the time to
10 and removes the peer, while the current NetworkPeer.hpp prune adds
exactly 3, leaving the peer with time 8 < 9 as the claim requires. -/
theorem c5_prune_doubling_bug :
    pruneOld 9 3 [⟨"alpha.local.", 8001, PeerSource.Discovered, 5⟩] = [] ∧
      prune 9 3 [⟨"alpha.local.", 8001, PeerSource.Discovered, 5⟩] =
        [⟨"alpha.local.", 8001, PeerSource.Discovered, 8⟩] := by
  exact ⟨rfl, rfl⟩

/-! ## Claim C1: the negotiate predicate -/

/-- C1 (counterexample).  The claim as stated fails when the Negotiate
carries the local hostname itself: the reply is Confirm(0) but
SetNextServer's IsSelf guard leaves next_server untouched. -/
theorem c1_claim_refuted : ¬ClaimC1 := by
  intro h
  have hc : (handleNegotiate "a.local." 0 ⟨Host.empty, 0⟩ "a.local." 9 0 10).confirm = 0 := by
    simp [handleNegotiate, namePrefer]
  have hn : (handleNegotiate "a.local." 0 ⟨Host.empty, 0⟩ "a.local." 9 0 10).next =
      ⟨Host.empty, 0⟩ := by
    simp [handleNegotiate, setNextServer, namePrefer]
  have h2 := (h "a.local." 0 ⟨Host.empty, 0⟩ "a.local." 9 0 10).2 (by rw [hc]; decide)
  rw [hn] at h2
  have : (0 : ℚ) = 10 := congrArg NextServer.setAt h2
  norm_num at this

/-- C1 (amended).  On receipt of Negotiate(clientName, port, R) with local
confirmed count L, the reply is Confirm(1) exactly when R < L or R = L with
the local hostname lexicographically smaller; otherwise the reply is
Confirm(0) and, unless the remote name equals the local hostname (the
IsSelf guard), the remote (name, port) is recorded as next_server; on
Confirm(1) next_server is untouched. -/
theorem c1_negotiate :
    ∀ (localName : String) (l : ℤ) (ns : NextServer) (clientName : String)
      (port : Nat) (r : ℤ) (now : ℚ),
      ((handleNegotiate localName l ns clientName port r now).confirm = 1 ↔
          (r < l ∨ (r = l ∧ localName < clientName))) ∧
        ((handleNegotiate localName l ns clientName port r now).confirm = 0 ∨
          (handleNegotiate localName l ns clientName port r now).confirm = 1) ∧
        ((handleNegotiate localName l ns clientName port r now).confirm = 0 →
          (handleNegotiate localName l ns clientName port r now).next =
            if clientName = localName then ns
            else NextServer.set ⟨clientName, port⟩ now) ∧
        ((handleNegotiate localName l ns clientName port r now).confirm = 1 →
          (handleNegotiate localName l ns clientName port r now).next = ns) := by
  intro localName l ns clientName port r now
  have heq :
      handleNegotiate localName l ns clientName port r now =
        if r < l ∨ (r = l ∧ namePrefer localName clientName) then
          { confirm := 1, next := ns }
        else
          { confirm := 0, next := setNextServer localName ns clientName port now } := by
    by_cases hcond : r < l ∨ (r = l ∧ namePrefer localName clientName)
    · simp [handleNegotiate, hcond]
    · simp [handleNegotiate, hcond]
  rw [heq]
  by_cases hcond : r < l ∨ (r = l ∧ namePrefer localName clientName)
  · rw [if_pos hcond]
    exact ⟨⟨fun _ => hcond, fun _ => rfl⟩, Or.inr rfl,
      fun hzero => absurd hzero one_ne_zero, fun _ => rfl⟩
  · rw [if_neg hcond]
    refine ⟨⟨fun h0 => absurd h0 zero_ne_one, fun hc => absurd hc hcond⟩, Or.inl rfl,
      fun _ => ?_, fun hone => absurd hone zero_ne_one⟩
    unfold setNextServer NextServer.set
    rfl

/-! ## Claim C2: the client state values and Confirm(0) -/

/-- C2 (counterexample).  ClientState has no four pairwise distinct values
(the enum declares only Unconfirmed, Confirmed, Connected), and the
Confirm(0) handler disconnects the socket immediately rather than on the
next discovery tick. -/
theorem c2_claim_refuted : ¬ClaimC2 := by
  unfold ClaimC2
  decide

/-- C2 (amended).  ClientState ranges over exactly the three values
Unconfirmed, Confirmed and Connected; receiving Confirm(0) leaves the
stored state unchanged and calls Disconnect() immediately inside the
handler, while a non-zero confirm moves the state to Confirmed with no
disconnect. -/
theorem c2_client_state :
    (∀ s : ClientState,
        s = ClientState.Unconfirmed ∨ s = ClientState.Confirmed ∨
          s = ClientState.Connected) ∧
      ∀ (s : ClientState) (confirm : ℤ),
        handleConfirmToClient s confirm =
          if confirm = 0 then (s, true) else (ClientState.Confirmed, false) := by
  constructor
  · intro s
    cases s
    · exact Or.inl rfl
    · exact Or.inr (Or.inl rfl)
    · exact Or.inr (Or.inr rfl)
  · intro s confirm
    rfl

/-! ## Claim C3: connected-as-server -/

/-- C3 (counterexample).  A server with one open socket whose client has
not yet sent its Confirm: IsServerConnected already reports true while the
confirmed-client set is empty. -/
theorem c3_claim_refuted : ¬ClaimC3 := by
  intro h
  have := (h ⟨⟨some [7]⟩, []⟩).mp (by decide)
  exact this rfl

/-- C3 (amended).  IsServerConnected holds exactly when the transport
server object exists and holds at least one open socket connection
(NClients() non-zero); it does not consult the confirmed-client set. -/
theorem c3_is_server_connected :
    ∀ n : ServerNode,
      isServerConnected n.server = true ↔
        ∃ l, n.server.conns = some l ∧ l ≠ [] := by
  intro n
  rcases n with ⟨⟨conns⟩, cc⟩
  cases conns with
  | none => simp [isServerConnected, nClients]
  | some l =>
    simp only [isServerConnected, nClients, decide_eq_true_eq, ne_eq,
      Option.some.injEq]
    constructor
    · intro hl
      exact ⟨l, rfl, fun he => hl (by simp [he])⟩
    · rintro ⟨l', rfl, hl'⟩
      simpa [List.length_eq_zero] using hl'

/-! ## Claim C7: TryConnect and the Negotiate payload -/

/-- C7 (counterexample).  A node listening on port 8001 that connects out
to port 9000 sends Negotiate carrying 9000 -- the port Port() reports for
the new outgoing connection -- not its own listening port 8001. -/
theorem c7_claim_refuted : ¬ClaimC7 := by
  intro h
  have h2 :=
    ((h ⟨"a.local.", 8001, ⟨none, "", 0⟩, ClientState.Connected, []⟩
          "b.local." 9000 (some 1)).2 1 rfl).1
  have hx :
      (tryConnect ⟨"a.local.", 8001, ⟨none, "", 0⟩, ClientState.Connected, []⟩
            "b.local." 9000 (some 1)).2.1 =
        some ⟨"Negotiate", "a.local.", 9000, 0⟩ := rfl
  rw [hx] at h2
  have : (9000 : Nat) = 8001 := congrArg NegotiateMsg.port (Option.some.inj h2)
  norm_num at this

/-- C7 (amended).  TryConnect(host, port, direct = false) returns false
exactly when the transport connect fails; on success the client state
becomes Unconfirmed and the Negotiate payload carries the node's own
hostname, the port of the connection just established (the value Port()
returns after Connect, that is the remote's port), and the size of
confirmed_clients. -/
theorem c7_try_connect :
    ∀ (n : PeerNode) (host : String) (port : Nat) (created : Option Nat),
      ((tryConnect n host port created).2.2 = true ↔ created.isSome = true) ∧
        (created = none →
          (tryConnect n host port created).2.1 = none ∧
            (tryConnect n host port created).2.2 = false) ∧
        ∀ conn, created = some conn →
          (tryConnect n host port created).1.clientState = ClientState.Unconfirmed ∧
            (tryConnect n host port created).2.1 =
              some ⟨"Negotiate", n.hostName, port, (n.confirmedClients.length : ℤ)⟩ ∧
            (tryConnect n host port created).2.2 = true := by
  intro n host port created
  cases created <;> simp [tryConnect, connect, isClientConnected]

/-! ## Claim C8: next-server expiry -/

/-- C8.  A NextServer set at time s and read at time t yields the stored
host while t - s stays within 4 seconds and the empty host beyond; in
particular a read 5 seconds after the write yields the empty host. -/
theorem c8_next_server_expiry :
    ∀ (h : Host) (s t : ℚ),
      (t - s ≤ 4 → (NextServer.set h s).get t = h) ∧
        (4 < t - s → (NextServer.set h s).get t = Host.empty) ∧
        (NextServer.set h s).get (s + 5) = Host.empty := by
  intro h s t
  refine ⟨?_, ?_, ?_⟩
  · intro hle
    unfold NextServer.set NextServer.get
    exact if_neg (not_lt.mpr hle)
  · intro hgt
    unfold NextServer.set NextServer.get
    exact if_pos hgt
  · unfold NextServer.set NextServer.get
    have h5 : (4 : ℚ) < s + 5 - s := by ring_nf; norm_num
    exact if_pos h5

/-- C8 (witness).  Concrete reads at 3 and 5 seconds after a write at
time 0. -/
theorem c8_next_server_witness :
    (NextServer.set ⟨"beta.local.", 8001⟩ 0).get 3 = ⟨"beta.local.", 8001⟩ ∧
      (NextServer.set ⟨"beta.local.", 8001⟩ 0).get 5 = Host.empty := by
  refine ⟨(c8_next_server_expiry ⟨"beta.local.", 8001⟩ 0 3).1 (by norm_num), ?_⟩
  have h5 := (c8_next_server_expiry ⟨"beta.local.", 8001⟩ 0 5).2.1
  exact h5 (by norm_num)

/-! ## Claim C9: tag peek-matching -/

theorem getStr_eq {data : List Nat} {pos : Nat} {s : List Nat} {p : Nat}
    (h : getStr data pos = some (s, p)) :
    s = (data.drop pos).takeWhile (fun b => !decide (b = 0)) ∧
      p = pos + s.length + 1 := by
  simp only [getStr] at h
  split at h
  · rw [Option.some.injEq, Prod.mk.injEq] at h
    exact ⟨h.1.symm, by rw [← h.2, h.1]⟩
  · exact absurd h (by simp)

/-- C9.  IsNextTag(t) returns true exactly when the next null-terminated
string equals t; on a match the cursor moves just past the terminator, and
on a mismatch the stream is unchanged, so repeating the call returns the
same answer on the same cursor. -/
theorem c9_is_next_tag :
    ∀ (st : ByteStream) (tag : List Nat),
      ((isNextTag st tag).1 = true ↔ ∃ p, getStr st.data st.pos = some (tag, p)) ∧
        ((isNextTag st tag).1 = true →
          (isNextTag st tag).2.data = st.data ∧
            getStr st.data st.pos = some (tag, (isNextTag st tag).2.pos) ∧
            (isNextTag st tag).2.pos = st.pos + tag.length + 1) ∧
        ((isNextTag st tag).1 = false → (isNextTag st tag).2 = st) ∧
        ((isNextTag st tag).1 = false →
          isNextTag (isNextTag st tag).2 tag = isNextTag st tag) := by
  intro st tag
  rcases hg : getStr st.data st.pos with _ | ⟨s, p⟩
  · have he : isNextTag st tag = (false, st) := by
      unfold isNextTag
      rw [hg]
    rw [he]
    refine ⟨?_, ?_, fun _ => rfl, fun _ => he⟩
    · constructor
      · intro hf
        simp at hf
      · rintro ⟨p', hp'⟩
        exact absurd hp' (by simp)
    · intro hf
      simp at hf
  · by_cases hs : s = tag
    · have he : isNextTag st tag = (true, { st with pos := p }) := by
        unfold isNextTag
        rw [hg]
        simp [hs]
      obtain ⟨_, hp⟩ := getStr_eq hg
      rw [hs] at hp
      rw [he]
      refine ⟨⟨fun _ => ⟨p, by rw [hs]⟩, fun _ => rfl⟩, ?_, ?_, ?_⟩
      · intro _
        exact ⟨rfl, by rw [hs], hp⟩
      · intro hf
        simp at hf
      · intro hf
        simp at hf
    · have he : isNextTag st tag = (false, st) := by
        unfold isNextTag
        rw [hg]
        simp [hs]
      rw [he]
      refine ⟨?_, ?_, fun _ => rfl, fun _ => he⟩
      · constructor
        · intro hf
          simp at hf
        · rintro ⟨p', hp'⟩
          rw [Option.some.injEq, Prod.mk.injEq] at hp'
          exact absurd hp'.1 hs
      · intro hf
        simp at hf

/-- C9 (witness).  On the stream [72, 105, 0, 7] at cursor 0 the tag
[72, 105] matches and the cursor lands on 3; the tag [72] does not match
and the stream is unchanged. -/
theorem c9_is_next_tag_witness :
    (isNextTag ⟨[72, 105, 0, 7], 0⟩ [72, 105]).1 = true ∧
      (isNextTag ⟨[72, 105, 0, 7], 0⟩ [72, 105]).2.pos = 0 + [72, 105].length + 1 ∧
      (isNextTag ⟨[72, 105, 0, 7], 0⟩ [72]).2 = (⟨[72, 105, 0, 7], 0⟩ : ByteStream) := by
  refine ⟨?_, ?_, ?_⟩
  · exact (c9_is_next_tag ⟨[72, 105, 0, 7], 0⟩ [72, 105]).1.mpr ⟨3, rfl⟩
  · exact ((c9_is_next_tag ⟨[72, 105, 0, 7], 0⟩ [72, 105]).2.1 rfl).2.2
  · exact (c9_is_next_tag ⟨[72, 105, 0, 7], 0⟩ [72]).2.2.1 rfl

/-! ## Claim C10: Connect error handling -/

/-- C10.  Connect always releases the previously held connection; when the
transport fails to create a connection the client ends fully disconnected
-- no connection, empty server name, port 0 -- and Connect returns false;
when creation succeeds the new connection, server name and port are stored
and Connect returns true. -/
theorem c10_connect_error_reset :
    ∀ (c : ClientSt) (host : String) (port : Nat) (created : Option Nat),
      (connect c host port created).2.1 = c.connection ∧
        (created = none →
          (connect c host port created).1 = ⟨none, "", 0⟩ ∧
            (connect c host port created).2.2 = false ∧
            isClientConnected (connect c host port created).1 = false) ∧
        ∀ conn, created = some conn →
          (connect c host port created).1 = ⟨some conn, host, port⟩ ∧
            (connect c host port created).2.2 = true := by
  intro c host port created
  cases created <;> simp [connect, isClientConnected]

/-! ## Median filter lemmas for Claim C4 -/

theorem shiftWin_append (ps : List ℚ) (v : ℚ) :
    shiftWin (ps ++ [v]) = v :: (shiftWin ps).take 4 := by
  unfold shiftWin
  rw [List.foldl_append]
  rfl

theorem foldl_shift_length (ps : List ℚ) :
    ∀ w : List ℚ, w.length = 5 →
      (ps.foldl (fun w v => v :: w.take 4) w).length = 5 := by
  induction ps with
  | nil => intro w hw; exact hw
  | cons v ps ih =>
    intro w hw
    simp only [List.foldl_cons]
    apply ih
    simp [List.length_take, hw]

theorem shiftWin_length (ps : List ℚ) : (shiftWin ps).length = 5 :=
  foldl_shift_length ps (List.replicate 5 0) (by simp)

theorem lastFive_append (ps : List ℚ) (v : ℚ) :
    lastFiveProposals (ps ++ [v]) = v :: (lastFiveProposals ps).take 4 := by
  unfold lastFiveProposals
  rw [List.take_append_eq_append_take, List.take_take, List.take_replicate,
    List.reverse_append]
  simp only [List.reverse_cons, List.reverse_nil, List.nil_append,
    List.singleton_append, List.length_append, List.length_singleton]
  rw [show (5 : ℕ) = 4 + 1 from rfl, List.take_succ_cons, List.cons_append]
  congr 2
  rw [List.length_take, List.length_reverse]
  congr 1
  omega

theorem shiftWin_eq_lastFive (ps : List ℚ) : shiftWin ps = lastFiveProposals ps := by
  induction ps using List.reverseRecOn with
  | nil => rfl
  | append_singleton ps v ih => rw [shiftWin_append, lastFive_append, ih]

theorem exists_five {l : List ℚ} (h : l.length = 5) :
    ∃ a b c d e, l = [a, b, c, d, e] := by
  rcases l with _ | ⟨a, l⟩
  · simp at h
  rcases l with _ | ⟨b, l⟩
  · simp at h
  rcases l with _ | ⟨c, l⟩
  · simp at h
  rcases l with _ | ⟨d, l⟩
  · simp at h
  rcases l with _ | ⟨e, l⟩
  · simp at h
  rcases l with _ | ⟨f, l⟩
  · exact ⟨a, b, c, d, e, rfl⟩
  · simp only [List.length_cons] at h
    omega

theorem filtInv_init : FiltInv [] Filt.init := ⟨rfl, rfl⟩

theorem filtInv_push {ps : List ℚ} {f : Filt} (h : FiltInv ps f) (v : ℚ) :
    FiltInv (ps ++ [v]) (f.push v) := by
  obtain ⟨hc, hm⟩ := h
  obtain ⟨a, b, c, d, e, hw⟩ := exists_five (shiftWin_length ps)
  obtain ⟨m0, m1, m2, m3, m4, cur⟩ := f
  have hlen : (ps ++ [v]).length = ps.length + 1 := by simp
  have hshift : shiftWin (ps ++ [v]) = [v, a, b, c, d] := by
    rw [shiftWin_append, hw]
    rfl
  have h5 : ps.length % 5 = 0 ∨ ps.length % 5 = 1 ∨ ps.length % 5 = 2 ∨
      ps.length % 5 = 3 ∨ ps.length % 5 = 4 := by omega
  simp only [Filt.toList] at hm
  rcases h5 with h5 | h5 | h5 | h5 | h5 <;>
    rw [h5] at hc hm <;> rw [hw] at hm <;> subst hc <;>
    simp only [window5, List.cons.injEq, and_true] at hm <;>
    obtain ⟨rfl, rfl, rfl, rfl, rfl⟩ := hm <;>
    refine ⟨by simp [Filt.push, hlen]; omega, ?_⟩ <;>
    rw [hshift, hlen]
  · rw [show (ps.length + 1) % 5 = 1 from by omega]
    rfl
  · rw [show (ps.length + 1) % 5 = 2 from by omega]
    rfl
  · rw [show (ps.length + 1) % 5 = 3 from by omega]
    rfl
  · rw [show (ps.length + 1) % 5 = 4 from by omega]
    rfl
  · rw [show (ps.length + 1) % 5 = 0 from by omega]
    rfl

theorem window5_perm (a b c d e : ℚ) (k : Nat) :
    (window5 [a, b, c, d, e] k).Perm [a, b, c, d, e] := by
  rcases k with _ | _ | _ | _ | k
  · show ([e, d, c, b, a].Perm [a, b, c, d, e])
    simpa using List.reverse_perm [a, b, c, d, e]
  · show ([a, e, d, c, b].Perm [a, b, c, d, e])
    refine List.Perm.cons a ?_
    simpa using List.reverse_perm [b, c, d, e]
  · show ([b, a, e, d, c].Perm [a, b, c, d, e])
    refine (List.Perm.swap a b [e, d, c]).trans ?_
    refine List.Perm.cons a (List.Perm.cons b ?_)
    simpa using List.reverse_perm [c, d, e]
  · show ([c, b, a, e, d].Perm [a, b, c, d, e])
    have h1 : ([c, b, a] ++ [e, d]).Perm ([a, b, c] ++ [e, d]) := by
      refine List.Perm.append_right [e, d] ?_
      simpa using List.reverse_perm [a, b, c]
    have h2 : ([a, b, c] ++ [e, d]).Perm ([a, b, c] ++ [d, e]) :=
      List.Perm.append_left [a, b, c] (List.Perm.swap d e [])
    exact h1.trans h2
  · show ([d, c, b, a, e].Perm [a, b, c, d, e])
    have h1 : ([d, c, b, a] ++ [e]).Perm ([a, b, c, d] ++ [e]) := by
      refine List.Perm.append_right [e] ?_
      simpa using List.reverse_perm [a, b, c, d]
    simpa using h1

theorem median5_perm {l l' : List ℚ} (h : l.Perm l') : median5 l = median5 l' := by
  unfold median5 sortQ
  congr 1
  refine List.eq_of_perm_of_sorted ?_ (List.sorted_insertionSort _ l)
    (List.sorted_insertionSort _ l')
  exact (List.perm_insertionSort _ l).trans (h.trans (List.perm_insertionSort _ l').symm)

theorem min_max_clamp {x lo hi : ℚ} (h : lo ≤ hi) :
    min hi (max lo x) = max lo (min hi x) := by
  simp only [min_def, max_def]
  split_ifs <;> linarith

/-! ## Claim C4: the Respond step of the precision timer -/

theorem receiveRespond_eq (st : TimerSt) (e : SyncEvt) :
    receiveRespond st e.t1 e.t2 e.t3 =
      { offset := st.offset +
          min (|median5 (st.filter.push (specAlterRaw e)).toList| * 8)
            (max (-(|median5 (st.filter.push (specAlterRaw e)).toList| * 8))
              (specAlterRaw e))
        reference := -(st.offset +
          min (|median5 (st.filter.push (specAlterRaw e)).toList| * 8)
            (max (-(|median5 (st.filter.push (specAlterRaw e)).toList| * 8))
              (specAlterRaw e)))
        filter := st.filter.push (specAlterRaw e) } := by
  have ho : calculateOffset e.t1 e.t2 e.t2 e.t3 = specRawOffset e := by
    unfold calculateOffset half specRawOffset
    ring
  simp only [receiveRespond]
  rw [ho]
  rfl

theorem runTimer_filter (hist : List SyncEvt) :
    ∀ st : TimerSt,
      (runTimer st hist).filter = (hist.map specAlterRaw).foldl Filt.push st.filter := by
  induction hist with
  | nil => intro st; rfl
  | cons e hist ih =>
    intro st
    simp only [runTimer, List.foldl_cons, List.map_cons]
    have h1 := ih (receiveRespond st e.t1 e.t2 e.t3)
    unfold runTimer at h1
    rw [h1, receiveRespond_eq]

theorem filtRun_inv (ps : List ℚ) : FiltInv ps (ps.foldl Filt.push Filt.init) := by
  induction ps using List.reverseRecOn with
  | nil => exact filtInv_init
  | append_singleton ps v ih =>
    rw [List.foldl_append]
    simp only [List.foldl_cons, List.foldl_nil]
    exact filtInv_push ih v

/-- C4.  After any history of Respond receipts since reset, one more
Respond(t1, t2) received at local time t3 changes the offset by exactly
alter and makes the reference the negated new offset, where
o = ((t2 - t1) + (t2 - t3)) / 2, alter_raw = o * clamp(fabs(o), 0.1, 1.0),
m is the median of the last five alter_raw proposals (zero-seeded 5-tap
filter), compare = fabs(m) * 8.0 and
alter = clamp(alter_raw, -compare, compare). -/
theorem c4_respond_offset :
    ∀ (off ref : ℚ) (hist : List SyncEvt) (e : SyncEvt),
      (receiveRespond (runTimer (timerInit off ref) hist) e.t1 e.t2 e.t3).offset =
          (runTimer (timerInit off ref) hist).offset + specAlter hist e ∧
        (receiveRespond (runTimer (timerInit off ref) hist) e.t1 e.t2 e.t3).reference =
          -((runTimer (timerInit off ref) hist).offset + specAlter hist e) := by
  intro off ref hist e
  have hfil : (runTimer (timerInit off ref) hist).filter =
      (hist.map specAlterRaw).foldl Filt.push Filt.init := by
    rw [runTimer_filter]
    rfl
  have hinv : FiltInv (hist.map specAlterRaw) (runTimer (timerInit off ref) hist).filter := by
    rw [hfil]
    exact filtRun_inv _
  have hinv' :
      FiltInv (hist.map specAlterRaw ++ [specAlterRaw e])
        ((runTimer (timerInit off ref) hist).filter.push (specAlterRaw e)) :=
    filtInv_push hinv _
  obtain ⟨a, b, c, d, e5, hw⟩ :=
    exists_five (shiftWin_length (hist.map specAlterRaw ++ [specAlterRaw e]))
  have hperm :
      (((runTimer (timerInit off ref) hist).filter.push (specAlterRaw e)).toList).Perm
        (shiftWin (hist.map specAlterRaw ++ [specAlterRaw e])) := by
    rw [hinv'.2, hw]
    exact window5_perm a b c d e5 _
  have hmed :
      median5 (((runTimer (timerInit off ref) hist).filter.push (specAlterRaw e)).toList) =
        median5 (lastFiveProposals ((hist ++ [e]).map specAlterRaw)) := by
    rw [List.map_append, ← shiftWin_eq_lastFive]
    exact median5_perm hperm
  have hC : (0 : ℚ) ≤ |median5 (lastFiveProposals ((hist ++ [e]).map specAlterRaw))| * 8 := by
    positivity
  have hclamp := @min_max_clamp
    (specAlterRaw e)
    (-(|median5 (lastFiveProposals ((hist ++ [e]).map specAlterRaw))| * 8))
    (|median5 (lastFiveProposals ((hist ++ [e]).map specAlterRaw))| * 8)
    (by linarith)
  rw [receiveRespond_eq, hmed]
  unfold specAlter clampQ
  simp only [List.map_append, List.map_cons, List.map_nil] at *
  exact ⟨by rw [hclamp], by rw [hclamp]⟩

end IPlugNU
